import Mathlib

/-!
Verification of the `nested_structures` library (wheeler-microfluidics).

The source (`nested_structures/__init__.py`) defines a "nested nodes"
structure: a list of entries, each entry either a bare key or a 2-tuple
`(key, children)` where `children` is again a list of entries.  The library
provides two depth-first traversals (`apply_depth_first` over the raw
encoding, `apply_dict_depth_first` over the `OrderedDict`-of-`Node`
encoding) and two flattening wrappers (`collect`, `dict_collect`).

This file shallowly embeds those functions over an inductive `Entry` type
(the typed view of the encoding) and, for the shape-error behaviour, over a
small `PyObj` type modelling the dynamically-typed values the Python code
actually inspects.  Python's `OrderedDict` is modelled as an association
list with an insert operation that updates in place (keeping the original
position of an existing key, as `OrderedDict.__setitem__` does).
-/

set_option autoImplicit false

namespace NestedStructures

universe u v w

variable {κ : Type u} {α : Type v} {β : Type w}

/-- One element of the raw nested-structure encoding: a bare key, or a
`(key, children)` tuple (`isinstance(node, tuple)` in the source). -/
inductive Entry (κ : Type u) where
  | bare (key : κ)
  | pair (key : κ) (children : List (Entry κ))
  deriving Repr

/-- The key the source extracts from an entry (`node, nodes = node` for a
tuple, the entry itself otherwise). -/
def Entry.key : Entry κ → κ
  | .bare k => k
  | .pair k _ => k

/-- The raw child-entry list the source passes to `func` as its third
argument: the second tuple component for a pair, `[]` for a bare key. -/
def Entry.childEntries : Entry κ → List (Entry κ)
  | .bare _ => []
  | .pair _ cs => cs

@[simp] theorem Entry.key_bare (k : κ) : (Entry.bare k).key = k := rfl

@[simp] theorem Entry.key_pair (k : κ) (cs : List (Entry κ)) :
    (Entry.pair k cs).key = k := rfl

@[simp] theorem Entry.childEntries_bare (k : κ) :
    (Entry.bare k).childEntries = [] := rfl

@[simp] theorem Entry.childEntries_pair (k : κ) (cs : List (Entry κ)) :
    (Entry.pair k cs).childEntries = cs := rfl

/-- One element of the sequence-mode (`as_dict=False`) output: either a bare
transformed value or an `(item, children)` tuple. -/
inductive SeqOut (α : Type v) where
  | bare (item : α)
  | node (item : α) (children : List (SeqOut α))
  deriving Repr

/-- The `Node` class of the source: a transformed `item` together with
`children`, which is either an ordered mapping (modelled as an association
list) or `None`. -/
inductive Node (κ : Type u) (α : Type v) where
  | mk (item : α) (children : Option (List (κ × Node κ α)))

/-- `item` attribute of a `Node`. -/
def Node.item : Node κ α → α
  | .mk i _ => i

/-- `children` attribute of a `Node`. -/
def Node.children : Node κ α → Option (List (κ × Node κ α))
  | .mk _ c => c

/-- `d[k] = v` on an `OrderedDict` modelled as an association list: if `k`
is already present its value is replaced in place (the key keeps its
original position); otherwise `(k, v)` is appended at the end. -/
def odInsert [DecidableEq κ] (k : κ) (v : α) : List (κ × α) → List (κ × α)
  | [] => [(k, v)]
  | (k', v') :: rest =>
      if k' = k then (k', v) :: rest else (k', v') :: odInsert k v rest

/-- `d[k]` lookup on the ordered-dict model (`none` when absent). -/
def odLookup [DecidableEq κ] (k : κ) : List (κ × α) → Option α
  | [] => none
  | (k', v') :: rest => if k' = k then some v' else odLookup k rest

/-- `apply_depth_first(nodes, func, as_dict=False, parents)`: for each entry
in order, split it into `(key, child_entries)`, call
`func(key, parents, child_entries)`, recurse into non-empty children with
`parents + [key]`, and emit either the bare item or an `(item, children)`
tuple. -/
def apply_depth_first_seq (f : κ → List κ → List (Entry κ) → α)
    (parents : List κ) : List (Entry κ) → List (SeqOut α)
  | [] => []
  | .bare k :: rest =>
      SeqOut.bare (f k parents []) :: apply_depth_first_seq f parents rest
  | .pair k cs :: rest =>
      (if cs.isEmpty then
        SeqOut.bare (f k parents cs)
      else
        SeqOut.node (f k parents cs)
          (apply_depth_first_seq f (parents ++ [k]) cs)) ::
      apply_depth_first_seq f parents rest
  termination_by es => sizeOf es
  decreasing_by all_goals simp_wf <;> omega

/-- `apply_depth_first(nodes, func, as_dict=True, parents)`: the same loop,
but each entry performs `items[key] = Node(item, children)` on the ordered
dict accumulated in `acc` (the local `items`, empty at the start of each
call); children of a non-empty child list are built by a fresh recursive
call. -/
def apply_depth_first_dict [DecidableEq κ] (f : κ → List κ → List (Entry κ) → α)
    (parents : List κ) (acc : List (κ × Node κ α)) :
    List (Entry κ) → List (κ × Node κ α)
  | [] => acc
  | .bare k :: rest =>
      apply_depth_first_dict f parents
        (odInsert k (Node.mk (f k parents []) none) acc) rest
  | .pair k cs :: rest =>
      apply_depth_first_dict f parents
        (odInsert k
          (Node.mk (f k parents cs)
            (if cs.isEmpty then none
             else some (apply_depth_first_dict f (parents ++ [k]) [] cs))) acc)
        rest
  termination_by es => sizeOf es
  decreasing_by all_goals simp_wf <;> omega

/-- The sequence of `func(key, parents, child_entries)` invocations made by
`apply_depth_first` (in either output mode: the loop and the recursion are
identical, only the emission differs), in execution order: an entry's call
comes first, then the calls of its (non-empty) children, then the calls of
the following siblings. -/
def apply_depth_first_calls (parents : List κ) :
    List (Entry κ) → List (κ × List κ × List (Entry κ))
  | [] => []
  | .bare k :: rest =>
      (k, parents, []) :: apply_depth_first_calls parents rest
  | .pair k cs :: rest =>
      (k, parents, cs) ::
      ((if cs.isEmpty then []
        else apply_depth_first_calls (parents ++ [k]) cs) ++
       apply_depth_first_calls parents rest)
  termination_by es => sizeOf es
  decreasing_by all_goals simp_wf <;> omega

/-- `apply_dict_depth_first(nodes, func, as_dict=True, parents)`: iterate over
the `(key, node)` pairs of the input mapping, call `func(k, node, parents)`,
recurse into `node.children` whenever it is not `None` (even when it is an
empty mapping) with `parents + [(k, node)]`, and store
`items[k] = Node(item, children)`. -/
def apply_dict_depth_first [DecidableEq κ] (f : κ → Node κ α → List (κ × Node κ α) → β)
    (parents : List (κ × Node κ α)) (acc : List (κ × Node κ β)) :
    List (κ × Node κ α) → List (κ × Node κ β)
  | [] => acc
  | (k, Node.mk i none) :: rest =>
      apply_dict_depth_first f parents
        (odInsert k (Node.mk (f k (Node.mk i none) parents) none) acc) rest
  | (k, Node.mk i (some cs)) :: rest =>
      apply_dict_depth_first f parents
        (odInsert k
          (Node.mk (f k (Node.mk i (some cs)) parents)
            (some (apply_dict_depth_first f (parents ++ [(k, Node.mk i (some cs))]) [] cs)))
          acc)
        rest
  termination_by ns => sizeOf ns
  decreasing_by all_goals simp_wf <;> omega

/-- The sequence of `func(k, node, parents)` invocations made by
`apply_dict_depth_first`, in execution order (an element's call, then the
calls of its children when `node.children` is not `None`, then the calls of
the following elements). -/
def apply_dict_depth_first_calls (parents : List (κ × Node κ α)) :
    List (κ × Node κ α) → List (κ × Node κ α × List (κ × Node κ α))
  | [] => []
  | (k, Node.mk i none) :: rest =>
      (k, Node.mk i none, parents) :: apply_dict_depth_first_calls parents rest
  | (k, Node.mk i (some cs)) :: rest =>
      (k, Node.mk i (some cs), parents) ::
      (apply_dict_depth_first_calls (parents ++ [(k, Node.mk i (some cs))]) cs ++
       apply_dict_depth_first_calls parents rest)
  termination_by ns => sizeOf ns
  decreasing_by all_goals simp_wf <;> omega

/-- The traversal performed by `collect`: `apply_depth_first` called with the
closure `__collect__`, whose only effect is `items.append(transform(...))`.
The mutable closure list is made explicit as the `items` accumulator. -/
def collect_go (transform : κ → List κ → List (Entry κ) → β)
    (parents : List κ) (items : List β) : List (Entry κ) → List β
  | [] => items
  | .bare k :: rest =>
      collect_go transform parents (items ++ [transform k parents []]) rest
  | .pair k cs :: rest =>
      collect_go transform parents
        (if cs.isEmpty then items ++ [transform k parents cs]
         else collect_go transform (parents ++ [k])
                (items ++ [transform k parents cs]) cs)
        rest
  termination_by es => sizeOf es
  decreasing_by all_goals simp_wf <;> omega

/-- `collect(nested_nodes, transform)`. -/
def collect (nested_nodes : List (Entry κ))
    (transform : κ → List κ → List (Entry κ) → β) : List β :=
  collect_go transform [] [] nested_nodes

/-- `collect(nested_nodes)` with the default transform
`lambda node, parents, nodes: node`. -/
def collect_default (nested_nodes : List (Entry κ)) : List κ :=
  collect nested_nodes (fun node _ _ => node)

/-- The traversal performed by `dict_collect`: `apply_dict_depth_first`
called with the accumulating closure made explicit. -/
def dict_collect_go (transform : κ → Node κ α → List (κ × Node κ α) → β)
    (parents : List (κ × Node κ α)) (items : List β) :
    List (κ × Node κ α) → List β
  | [] => items
  | (k, Node.mk i none) :: rest =>
      dict_collect_go transform parents
        (items ++ [transform k (Node.mk i none) parents]) rest
  | (k, Node.mk i (some cs)) :: rest =>
      dict_collect_go transform parents
        (dict_collect_go transform (parents ++ [(k, Node.mk i (some cs))])
          (items ++ [transform k (Node.mk i (some cs)) parents]) cs)
        rest
  termination_by ns => sizeOf ns
  decreasing_by all_goals simp_wf <;> omega

/-- `dict_collect(nodes, transform)`. -/
def dict_collect (nodes : List (κ × Node κ α))
    (transform : κ → Node κ α → List (κ × Node κ α) → β) : List β :=
  dict_collect_go transform [] [] nodes

/-- `dict_collect(nodes)` with the default transform
`lambda *args: tuple(args)`, i.e. the full `(key, node, parents)` tuple. -/
def dict_collect_default (nodes : List (κ × Node κ α)) :
    List (κ × Node κ α × List (κ × Node κ α)) :=
  dict_collect nodes (fun k n p => (k, n, p))

/-! ### Fallible-transform variant

`apply_depth_first` with a transform that may raise: the exception
propagates out of the traversal.  Effects are sequenced exactly as the
source executes them: the entry's own `func` call, then the recursion into
its children, then the following siblings. -/

/-- `apply_depth_first(nodes, func, as_dict=False, parents)` when `func` may
raise: the first exception raised aborts the traversal and propagates. -/
def apply_depth_first_seqE {ε : Type w} (f : κ → List κ → List (Entry κ) → Except ε α)
    (parents : List κ) : List (Entry κ) → Except ε (List (SeqOut α))
  | [] => .ok []
  | .bare k :: rest =>
      match f k parents [] with
      | .error e => .error e
      | .ok item =>
          match apply_depth_first_seqE f parents rest with
          | .error e => .error e
          | .ok out => .ok (SeqOut.bare item :: out)
  | .pair k cs :: rest =>
      match f k parents cs with
      | .error e => .error e
      | .ok item =>
          if cs.isEmpty then
            match apply_depth_first_seqE f parents rest with
            | .error e => .error e
            | .ok out => .ok (SeqOut.bare item :: out)
          else
            match apply_depth_first_seqE f (parents ++ [k]) cs with
            | .error e => .error e
            | .ok children =>
                match apply_depth_first_seqE f parents rest with
                | .error e => .error e
                | .ok out => .ok (SeqOut.node item children :: out)
  termination_by es => sizeOf es
  decreasing_by all_goals simp_wf <;> omega

/-- `apply_depth_first(nodes, func, as_dict=True, parents)` when `func` may
raise. -/
def apply_depth_first_dictE {ε : Type w} [DecidableEq κ]
    (f : κ → List κ → List (Entry κ) → Except ε α) (parents : List κ)
    (acc : List (κ × Node κ α)) :
    List (Entry κ) → Except ε (List (κ × Node κ α))
  | [] => .ok acc
  | .bare k :: rest =>
      match f k parents [] with
      | .error e => .error e
      | .ok item =>
          apply_depth_first_dictE f parents
            (odInsert k (Node.mk item none) acc) rest
  | .pair k cs :: rest =>
      match f k parents cs with
      | .error e => .error e
      | .ok item =>
          if cs.isEmpty then
            apply_depth_first_dictE f parents
              (odInsert k (Node.mk item none) acc) rest
          else
            match apply_depth_first_dictE f (parents ++ [k]) [] cs with
            | .error e => .error e
            | .ok children =>
                apply_depth_first_dictE f parents
                  (odInsert k (Node.mk item (some children)) acc) rest
  termination_by es => sizeOf es
  decreasing_by all_goals simp_wf <;> omega

/-! ### Raw (dynamically-typed) model

The source performs no upfront validation: it checks `isinstance(node,
tuple)`, unpacks `node, nodes = node` (a `ValueError` for tuples of length
other than 2), tests `if nodes:` (Python truthiness), and iterates
`enumerate(nodes)` inside the recursive call (a `TypeError` for a truthy
non-iterable).  `PyObj` models just enough of the dynamic values to express
this behaviour: opaque scalars (falsy exactly when the modelled value is,
e.g. `None`, `0`, `False`), tuples, and lists. -/

/-- A dynamically-typed value as inspected by `apply_depth_first`. -/
inductive PyObj where
  | atom (n : Nat)
  | tuple (elems : List PyObj)
  | pylist (elems : List PyObj)
  deriving Repr

/-- Python truthiness: a scalar is falsy when its modelled value is (atom 0
stands for `None`/`0`/`False`/etc.), a tuple or list is truthy iff
non-empty. -/
def PyObj.truthy : PyObj → Bool
  | .atom n => n != 0
  | .tuple l => !l.isEmpty
  | .pylist l => !l.isEmpty

/-- The element sequence of an iterable value (`none` for a non-iterable
scalar, for which `enumerate` raises `TypeError`). -/
def PyObj.seqElems : PyObj → Option (List PyObj)
  | .atom _ => none
  | .tuple l => some l
  | .pylist l => some l

/-- The exceptions the traversal itself can raise. -/
inductive PyError where
  | valueError
  | typeError
  deriving Repr, DecidableEq

/-- `apply_depth_first(nodes, func, as_dict=False, parents)` over raw
dynamic values.  A tuple entry is unpacked (`ValueError` unless it has
exactly 2 elements); any other entry is a bare key with `nodes = []`.  When
the second tuple component is truthy the traversal recurses into it, which
iterates it (`TypeError` if it is not a sequence); when it is falsy the
entry is emitted as childless. -/
def apply_depth_first_raw {α : Type v} (f : PyObj → List PyObj → PyObj → α)
    (parents : List PyObj) : List PyObj → Except PyError (List (SeqOut α))
  | [] => .ok []
  | .tuple [k, ns] :: rest =>
      if ns.truthy then
        match _h : ns.seqElems with
        | some childEntries =>
            match apply_depth_first_raw f (parents ++ [k]) childEntries with
            | .error err => .error err
            | .ok children =>
                match apply_depth_first_raw f parents rest with
                | .error err => .error err
                | .ok out => .ok (SeqOut.node (f k parents ns) children :: out)
        | none => .error .typeError
      else
        match apply_depth_first_raw f parents rest with
        | .error err => .error err
        | .ok out => .ok (SeqOut.bare (f k parents ns) :: out)
  | .tuple [] :: _ => .error .valueError
  | .tuple [_] :: _ => .error .valueError
  | .tuple (_ :: _ :: _ :: _) :: _ => .error .valueError
  | .atom k :: rest =>
      match apply_depth_first_raw f parents rest with
      | .error err => .error err
      | .ok out => .ok (SeqOut.bare (f (.atom k) parents (.pylist [])) :: out)
  | .pylist l :: rest =>
      match apply_depth_first_raw f parents rest with
      | .error err => .error err
      | .ok out => .ok (SeqOut.bare (f (.pylist l) parents (.pylist [])) :: out)
  termination_by es => sizeOf es
  decreasing_by
    all_goals simp_wf
    cases ns <;> simp_all [PyObj.seqElems] <;> omega

/-! ### Spec-side definitions

Definitions written from the specification's wording, used to state the
claims and compare them with the embedded source functions. -/

/-- The `Node` stored for an entry in mapping mode, per §4.1: item is the
transformed value; children is the recursive mapping of the entry's
children when non-empty, `None` otherwise. -/
def nodeOf [DecidableEq κ] (f : κ → List κ → List (Entry κ) → α)
    (p : List κ) (e : Entry κ) : Node κ α :=
  Node.mk (f e.key p e.childEntries)
    (if e.childEntries.isEmpty then none
     else some (apply_depth_first_dict f (p ++ [e.key]) [] e.childEntries))

/-- The last entry of a level whose key is `k` (the one that survives
last-write-wins), `none` when `k` does not occur. -/
def lastEntryWith [DecidableEq κ] (k : κ) : List (Entry κ) → Option (Entry κ)
  | [] => none
  | e :: rest =>
      match lastEntryWith k rest with
      | some e' => some e'
      | none => if e.key = k then some e else none

/-- Append a key at the end unless it is already present (how an ordered
mapping's key sequence grows on insertion). -/
def insertKeyOrder [DecidableEq κ] (ks : List κ) (k : κ) : List κ :=
  if k ∈ ks then ks else ks ++ [k]

/-- The key sequence of the mapping-mode output, per §4.1: one key per
distinct key of the level, in first-insertion order. -/
def orderedKeys [DecidableEq κ] (es : List (Entry κ)) : List κ :=
  es.foldl (fun ks e => insertKeyOrder ks e.key) []

/-- §4.1's description of one sequence-mode output element: the bare
transformed value for an entry with no children, otherwise the
`(transformed value, recursively transformed children)` pair. -/
def seqElemSpec (f : κ → List κ → List (Entry κ) → α) (p : List κ) :
    Entry κ → SeqOut α
  | .bare k => SeqOut.bare (f k p [])
  | .pair k cs =>
      if cs.isEmpty then SeqOut.bare (f k p cs)
      else SeqOut.node (f k p cs) (apply_depth_first_seq f (p ++ [k]) cs)

/-- The flattened key list of a forest in depth-first pre-order: each
node's key before its children's keys, siblings in order. -/
def flattenKeys : List (Entry κ) → List κ
  | [] => []
  | .bare k :: rest => k :: flattenKeys rest
  | .pair k cs :: rest => k :: (flattenKeys cs ++ flattenKeys rest)
  termination_by es => sizeOf es
  decreasing_by all_goals simp_wf <;> omega

/-- The number of nodes of a forest. -/
def forestSize : List (Entry κ) → Nat
  | [] => 0
  | .bare _ :: rest => 1 + forestSize rest
  | .pair _ cs :: rest => 1 + forestSize cs + forestSize rest
  termination_by es => sizeOf es
  decreasing_by all_goals simp_wf <;> omega

/-- The shape-normalized view of an entry (§8 "round-trip shape"): same
branching and key values, children-free entries (bare keys and pairs with
an empty children list) become bare. -/
def shapeNormalized : Entry κ → SeqOut κ
  | .bare k => SeqOut.bare k
  | .pair k cs =>
      if cs.isEmpty then SeqOut.bare k
      else SeqOut.node k (cs.attach.map (fun c => shapeNormalized c.1))
  termination_by e => sizeOf e
  decreasing_by
    simp_wf
    have := List.sizeOf_lt_of_mem c.2
    omega

/-- `e` occurs in the forest with ancestor-key chain `anc` (outermost
ancestor first, immediate parent last); the node's depth is `anc.length`. -/
inductive OccursAt : List (Entry κ) → List κ → Entry κ → Prop where
  | head_here (e : Entry κ) (rest : List (Entry κ)) : OccursAt (e :: rest) [] e
  | head_child {k : κ} {cs : List (Entry κ)} {anc : List κ} {e : Entry κ}
      (rest : List (Entry κ)) (h : OccursAt cs anc e) :
      OccursAt (Entry.pair k cs :: rest) (k :: anc) e
  | tail {rest : List (Entry κ)} {anc : List κ} {e : Entry κ}
      (a : Entry κ) (h : OccursAt rest anc e) : OccursAt (a :: rest) anc e

/-- `q` occurs in the mapping-of-`Node` forest with ancestor chain `anc`
of `(key, node)` pairs (outermost first). -/
inductive DOccursAt :
    List (κ × Node κ α) → List (κ × Node κ α) → (κ × Node κ α) → Prop where
  | head_here (q : κ × Node κ α) (rest : List (κ × Node κ α)) :
      DOccursAt (q :: rest) [] q
  | head_child {k : κ} {i : α} {cs : List (κ × Node κ α)}
      {anc : List (κ × Node κ α)} {q : κ × Node κ α}
      (rest : List (κ × Node κ α)) (h : DOccursAt cs anc q) :
      DOccursAt ((k, Node.mk i (some cs)) :: rest)
        ((k, Node.mk i (some cs)) :: anc) q
  | tail {rest : List (κ × Node κ α)} {anc : List (κ × Node κ α)}
      {q : κ × Node κ α} (a : κ × Node κ α) (h : DOccursAt rest anc q) :
      DOccursAt (a :: rest) anc q

/-- Keys are pairwise distinct at every level of the forest. -/
def nodupForest [DecidableEq κ] : List (Entry κ) → Bool
  | [] => true
  | .bare k :: rest =>
      !(decide (k ∈ rest.map Entry.key)) && nodupForest rest
  | .pair k cs :: rest =>
      !(decide (k ∈ rest.map Entry.key)) && nodupForest cs && nodupForest rest
  termination_by es => sizeOf es
  decreasing_by all_goals simp_wf <;> omega

/-- §3's encoding, as the claim reads it: an entry is a bare (non-tuple)
key, or a 2-tuple whose second component is an ordered sequence whose
elements are again conforming entries. -/
def conformingEntries : List PyObj → Bool
  | [] => true
  | .tuple [_, .tuple cs] :: rest => conformingEntries cs && conformingEntries rest
  | .tuple [_, .pylist cs] :: rest => conformingEntries cs && conformingEntries rest
  | .tuple [_, .atom _] :: _ => false
  | .tuple [] :: _ => false
  | .tuple [_] :: _ => false
  | .tuple (_ :: _ :: _ :: _) :: _ => false
  | .atom _ :: rest => conformingEntries rest
  | .pylist _ :: rest => conformingEntries rest
  termination_by es => sizeOf es
  decreasing_by all_goals simp_wf <;> omega

/-- What the code actually accepts: every reached entry is either a
non-tuple (bare key), or a 2-tuple whose second component is falsy
(treated as childless), or a 2-tuple whose second component is a truthy
sequence all of whose elements are in turn accepted. -/
def acceptedEntries : List PyObj → Bool
  | [] => true
  | .tuple [_, .tuple cs] :: rest => acceptedEntries cs && acceptedEntries rest
  | .tuple [_, .pylist cs] :: rest => acceptedEntries cs && acceptedEntries rest
  | .tuple [_, .atom n] :: rest => (n == 0) && acceptedEntries rest
  | .tuple [] :: _ => false
  | .tuple [_] :: _ => false
  | .tuple (_ :: _ :: _ :: _) :: _ => false
  | .atom _ :: rest => acceptedEntries rest
  | .pylist _ :: rest => acceptedEntries rest
  termination_by es => sizeOf es
  decreasing_by all_goals simp_wf <;> omega

/-- Whether an `Except` result is a success. -/
def exceptOk {ε : Type w} {γ : Type v} : Except ε γ → Bool
  | .ok _ => true
  | .error _ => false

/-- The exception a fallible transform raises on one recorded invocation,
if any. -/
def errOf {ε : Type w} (f : κ → List κ → List (Entry κ) → Except ε α)
    (c : κ × List κ × List (Entry κ)) : Option ε :=
  match f c.1 c.2.1 c.2.2 with
  | .error e => some e
  | .ok _ => none

/-- The success value of a nowhere-failing fallible transform. -/
def okValue {ε : Type w} [Inhabited α]
    (f : κ → List κ → List (Entry κ) → Except ε α)
    (k : κ) (ps : List κ) (ns : List (Entry κ)) : α :=
  match f k ps ns with
  | .ok v => v
  | .error _ => default

/-! ### Ordered-dict lemmas -/

theorem odLookup_odInsert [DecidableEq κ] (k k' : κ) (v : α) (l : List (κ × α)) :
    odLookup k (odInsert k' v l) = if k' = k then some v else odLookup k l := by
  induction l with
  | nil => simp [odInsert, odLookup]
  | cons p rest ih =>
      obtain ⟨k'', v''⟩ := p
      by_cases h1 : k'' = k'
      · subst h1
        by_cases h2 : k'' = k <;> simp [odInsert, odLookup, h2]
      · by_cases h2 : k'' = k
        · have h3 : ¬ k' = k := fun h => h1 (h2.trans h.symm)
          have h4 : ¬ k = k' := fun h => h1 (h2.trans h)
          simp [odInsert, odLookup, h1, h2, h3, h4]
        · simp [odInsert, odLookup, h1, h2, ih]

theorem mapFst_odInsert [DecidableEq κ] (k : κ) (v : α) (l : List (κ × α)) :
    (odInsert k v l).map Prod.fst = insertKeyOrder (l.map Prod.fst) k := by
  induction l with
  | nil => simp [odInsert, insertKeyOrder]
  | cons p rest ih =>
      obtain ⟨k'', v''⟩ := p
      by_cases h1 : k'' = k
      · simp [odInsert, insertKeyOrder, h1]
      · have hne : ¬ k = k'' := fun h => h1 h.symm
        by_cases h2 : k ∈ rest.map Prod.fst <;>
          simp [odInsert, insertKeyOrder, h1, h2, ih, hne]

/-! ### Mapping-mode characterization -/

theorem apply_depth_first_dict_cons [DecidableEq κ]
    (f : κ → List κ → List (Entry κ) → α) (p : List κ)
    (acc : List (κ × Node κ α)) (e : Entry κ) (es : List (Entry κ)) :
    apply_depth_first_dict f p acc (e :: es) =
      apply_depth_first_dict f p (odInsert e.key (nodeOf f p e) acc) es := by
  cases e <;> simp [apply_depth_first_dict, nodeOf, Entry.key, Entry.childEntries]

theorem odLookup_apply_depth_first_dict [DecidableEq κ]
    (f : κ → List κ → List (Entry κ) → α) (p : List κ) (k : κ)
    (es : List (Entry κ)) (acc : List (κ × Node κ α)) :
    odLookup k (apply_depth_first_dict f p acc es) =
      match lastEntryWith k es with
      | some e => some (nodeOf f p e)
      | none => odLookup k acc := by
  induction es generalizing acc with
  | nil => simp [apply_depth_first_dict, lastEntryWith]
  | cons e rest ih =>
      rw [apply_depth_first_dict_cons, ih]
      cases h : lastEntryWith k rest with
      | some e' => simp [lastEntryWith, h]
      | none =>
          by_cases hk : e.key = k <;>
            simp [lastEntryWith, h, odLookup_odInsert, hk]

theorem mapFst_apply_depth_first_dict [DecidableEq κ]
    (f : κ → List κ → List (Entry κ) → α) (p : List κ)
    (es : List (Entry κ)) (acc : List (κ × Node κ α)) :
    (apply_depth_first_dict f p acc es).map Prod.fst =
      es.foldl (fun ks e => insertKeyOrder ks e.key) (acc.map Prod.fst) := by
  induction es generalizing acc with
  | nil => simp [apply_depth_first_dict]
  | cons e rest ih =>
      rw [apply_depth_first_dict_cons, ih, mapFst_odInsert]
      simp [List.foldl_cons]

theorem lastEntryWith_eq_none [DecidableEq κ] (k : κ) (es : List (Entry κ)) :
    lastEntryWith k es = none ↔ k ∉ es.map Entry.key := by
  induction es with
  | nil => simp [lastEntryWith]
  | cons e rest ih =>
      cases h : lastEntryWith k rest with
      | some e' =>
          simp only [lastEntryWith, h]
          have : k ∈ rest.map Entry.key := by
            by_contra hmem
            rw [← ih] at hmem
            simp [hmem] at h
          simp [this]
      | none =>
          have hrest : k ∉ rest.map Entry.key := ih.mp h
          simp only [lastEntryWith, h]
          by_cases hk : e.key = k
          · simp [hk, hrest]
          · simp [hk, hrest]
            exact fun hcontra => hk hcontra.symm

theorem lastEntryWith_append_last [DecidableEq κ] (k : κ)
    (es₁ es₂ : List (Entry κ)) (e : Entry κ) (hk : e.key = k)
    (h2 : k ∉ es₂.map Entry.key) :
    lastEntryWith k (es₁ ++ e :: es₂) = some e := by
  induction es₁ with
  | nil =>
      have : lastEntryWith k es₂ = none := (lastEntryWith_eq_none k es₂).mpr h2
      simp [lastEntryWith, this, hk]
  | cons a rest ih => simp [lastEntryWith, ih]

theorem apply_depth_first_seq_eq_map (f : κ → List κ → List (Entry κ) → α)
    (p : List κ) (es : List (Entry κ)) :
    apply_depth_first_seq f p es = es.map (seqElemSpec f p) := by
  induction es with
  | nil => simp [apply_depth_first_seq]
  | cons e rest ih => cases e <;> simp [apply_depth_first_seq, seqElemSpec, ih]

/-! ### Claims -/

/-- C1: in mapping mode (`as_dict=True`), `apply_depth_first` returns an
ordered mapping whose keys are the level's keys in first-insertion order,
and which maps each surviving key to `Node(item = f(key, parents,
child_entries), children = recursive mapping of the children when
non-empty, None otherwise)`, where the surviving entry for a key is its
last occurrence; with `parents = []` this gives
`result[key].item = f(key, [], child_entries_of(key))` for top-level keys. -/
theorem C1_mapping_reconstruction [DecidableEq κ]
    (f : κ → List κ → List (Entry κ) → α) (p : List κ)
    (es : List (Entry κ)) (k : κ) :
    (odLookup k (apply_depth_first_dict f p [] es) =
      (lastEntryWith k es).map (fun e => nodeOf f p e))
  ∧ ((apply_depth_first_dict f p [] es).map Prod.fst = orderedKeys es) := by
  constructor
  · rw [odLookup_apply_depth_first_dict]
    cases lastEntryWith k es <;> simp [odLookup]
  · rw [mapFst_apply_depth_first_dict]
    simp [orderedKeys]

/-- C2: in sequence mode (`as_dict=False`), `apply_depth_first` maps each
entry, in input order, to the bare transformed value (entry without
children) or to the `(transformed value, child result)` pair (entry with
children); and an explicit empty-children pair behaves exactly like the
bare key, in both output modes. -/
theorem C2_sequence_mode_and_empty_children [DecidableEq κ]
    (f : κ → List κ → List (Entry κ) → α) (p : List κ)
    (es rest : List (Entry κ)) (k : κ) (acc : List (κ × Node κ α)) :
    (apply_depth_first_seq f p es = es.map (seqElemSpec f p))
  ∧ (apply_depth_first_seq f p (.pair k [] :: rest) =
      apply_depth_first_seq f p (.bare k :: rest))
  ∧ (apply_depth_first_dict f p acc (.pair k [] :: rest) =
      apply_depth_first_dict f p acc (.bare k :: rest)) := by
  refine ⟨apply_depth_first_seq_eq_map f p es, ?_, ?_⟩
  · simp [apply_depth_first_seq]
  · simp [apply_depth_first_dict]

/-- C8: duplicate keys among siblings are not an error in mapping mode:
the mapping contains exactly the keys appearing at the level, and a key's
surviving `Node` is the one built from its last occurrence. -/
theorem C8_duplicate_keys_last_write_wins [DecidableEq κ]
    (f : κ → List κ → List (Entry κ) → α) (p : List κ)
    (es₁ es₂ : List (Entry κ)) (e : Entry κ) (k : κ)
    (hk : e.key = k) (hlast : k ∉ es₂.map Entry.key) :
    (odLookup k (apply_depth_first_dict f p [] (es₁ ++ e :: es₂)) =
      some (nodeOf f p e))
  ∧ ∀ k' : κ, (odLookup k' (apply_depth_first_dict f p [] (es₁ ++ e :: es₂)) = none
      ↔ k' ∉ (es₁ ++ e :: es₂).map Entry.key) := by
  constructor
  · rw [odLookup_apply_depth_first_dict,
      lastEntryWith_append_last k es₁ es₂ e hk hlast]
  · intro k'
    rw [odLookup_apply_depth_first_dict, ← lastEntryWith_eq_none]
    cases lastEntryWith k' (es₁ ++ e :: es₂) <;> simp [odLookup]

/-- Witness for C8 at a concrete input: the level `[(0, [1]), (0, [2]), 3]`
with transform `k * 10`; the surviving node for key `0` is built from the
second pair, and key `7` is absent. -/
theorem C8_duplicate_keys_last_write_wins_witness :
    ((Entry.pair 0 [.bare 2] : Entry Nat).key = 0)
  ∧ ((0 : Nat) ∉ [Entry.bare 3].map Entry.key)
  ∧ (odLookup 0 (apply_depth_first_dict (fun k _ _ => k * 10) [] []
        ([Entry.pair 0 [.bare 1]] ++ Entry.pair 0 [.bare 2] :: [Entry.bare 3])) =
      some (nodeOf (fun k _ _ => k * 10) [] (Entry.pair 0 [.bare 2])))
  ∧ (odLookup 7 (apply_depth_first_dict (fun k _ _ => k * 10) [] []
        ([Entry.pair 0 [.bare 1]] ++ Entry.pair 0 [.bare 2] :: [Entry.bare 3])) = none
      ↔ (7 : Nat) ∉ ([Entry.pair 0 [.bare 1]] ++
          Entry.pair 0 [.bare 2] :: [Entry.bare 3]).map Entry.key) :=
  ⟨rfl, by simp [Entry.key],
    (C8_duplicate_keys_last_write_wins (fun k _ _ => k * 10) []
      [Entry.pair 0 [.bare 1]] [Entry.bare 3] (Entry.pair 0 [.bare 2]) 0
      rfl (by simp [Entry.key])).1,
    (C8_duplicate_keys_last_write_wins (fun k _ _ => k * 10) []
      [Entry.pair 0 [.bare 1]] [Entry.bare 3] (Entry.pair 0 [.bare 2]) 0
      rfl (by simp [Entry.key])).2 7⟩

/-- C7: `apply_depth_first` with the identity transform
`lambda k, p, n: k` and `as_dict=False` returns the shape-normalized
input: same branching and key values, with every pair reproduced as
`(key, transformed children)` and every children-free entry (bare key or
empty-children pair) reproduced as the bare key, whatever the parent
chain. -/
theorem C7_identity_round_trip (p : List κ) (es : List (Entry κ)) :
    apply_depth_first_seq (fun k _ _ => k) p es = es.map shapeNormalized := by
  induction p, es using apply_depth_first_seq.induct (f := fun k _ _ => k) with
  | case1 p => simp [apply_depth_first_seq]
  | case2 p k rest ih => simp [apply_depth_first_seq, shapeNormalized, ih]
  | case3 p k cs rest ih1 ih2 =>
      by_cases h : cs.isEmpty <;>
        simp [apply_depth_first_seq, shapeNormalized, h, ih1, ih2,
          List.attach_map_val]

theorem collect_go_eq (t : κ → List κ → List (Entry κ) → β) (p : List κ)
    (es : List (Entry κ)) :
    ∀ items : List β,
      collect_go t p items es =
        items ++ (apply_depth_first_calls p es).map (fun c => t c.1 c.2.1 c.2.2) := by
  induction p, es using apply_depth_first_calls.induct with
  | case1 p => intro items; simp [collect_go, apply_depth_first_calls]
  | case2 p k rest ih =>
      intro items
      simp [collect_go, apply_depth_first_calls, ih]
  | case3 p k cs rest ih1 ih2 =>
      intro items
      by_cases h : cs.isEmpty <;>
        simp [collect_go, apply_depth_first_calls, h, ih1, ih2]

theorem dict_collect_go_eq (t : κ → Node κ α → List (κ × Node κ α) → β)
    (p : List (κ × Node κ α)) (ns : List (κ × Node κ α)) :
    ∀ items : List β,
      dict_collect_go t p items ns =
        items ++ (apply_dict_depth_first_calls p ns).map (fun c => t c.1 c.2.1 c.2.2) := by
  induction p, ns using apply_dict_depth_first_calls.induct with
  | case1 p => intro items; simp [dict_collect_go, apply_dict_depth_first_calls]
  | case2 p k i rest ih =>
      intro items
      simp [dict_collect_go, apply_dict_depth_first_calls, ih]
  | case3 p k i cs rest ih1 ih2 =>
      intro items
      simp [dict_collect_go, apply_dict_depth_first_calls, ih1, ih2]

theorem mapFst_apply_depth_first_calls (p : List κ) (es : List (Entry κ)) :
    (apply_depth_first_calls p es).map (fun c => c.1) = flattenKeys es := by
  induction p, es using apply_depth_first_calls.induct with
  | case1 p => simp [apply_depth_first_calls, flattenKeys]
  | case2 p k rest ih => simp [apply_depth_first_calls, flattenKeys, ih]
  | case3 p k cs rest ih1 ih2 =>
      by_cases h : cs.isEmpty
      · rw [List.isEmpty_iff] at h
        subst h
        simp [apply_depth_first_calls, flattenKeys, ih2]
      · simp [apply_depth_first_calls, flattenKeys, h, ih1, ih2]

theorem length_apply_depth_first_calls (p : List κ) (es : List (Entry κ)) :
    (apply_depth_first_calls p es).length = forestSize es := by
  induction p, es using apply_depth_first_calls.induct with
  | case1 p => simp [apply_depth_first_calls, forestSize]
  | case2 p k rest ih =>
      simp [apply_depth_first_calls, forestSize, ih]
      omega
  | case3 p k cs rest ih1 ih2 =>
      by_cases h : cs.isEmpty
      · rw [List.isEmpty_iff] at h
        subst h
        simp [apply_depth_first_calls, forestSize, ih2]
        omega
      · simp [apply_depth_first_calls, forestSize, h, ih1, ih2]
        omega

theorem length_apply_depth_first_seq (f : κ → List κ → List (Entry κ) → α)
    (p : List κ) (es : List (Entry κ)) :
    (apply_depth_first_seq f p es).length = es.length := by
  induction es with
  | nil => simp [apply_depth_first_seq]
  | cons e rest ih => cases e <;> simp [apply_depth_first_seq, ih]

theorem flattenKeys_of_childless (es : List (Entry κ))
    (h : ∀ e ∈ es, e.childEntries = []) : flattenKeys es = es.map Entry.key := by
  induction es with
  | nil => simp [flattenKeys]
  | cons e rest ih =>
      have hrest : ∀ e ∈ rest, e.childEntries = [] :=
        fun e' he' => h e' (List.mem_cons_of_mem _ he')
      cases e with
      | bare k => simp [flattenKeys, Entry.key, ih hrest]
      | pair k cs =>
          have : cs = [] := h (Entry.pair k cs) (List.mem_cons_self _ _)
          subst this
          simp [flattenKeys, Entry.key, ih hrest]

/-- C10: the transform is invoked exactly once per node of the forest
(including nodes whose key duplicates an earlier sibling's: the invocation
trace is shared by both output modes and counts every node), the
sequence-mode output has exactly one element per entry of a level, and
`collect` returns exactly one accumulated value per node. -/
theorem C10_transform_once_per_entry (f : κ → List κ → List (Entry κ) → α)
    (t : κ → List κ → List (Entry κ) → β) (p : List κ) (es : List (Entry κ)) :
    ((apply_depth_first_seq f p es).length = es.length)
  ∧ ((apply_depth_first_calls p es).length = forestSize es)
  ∧ ((collect es t).length = forestSize es) := by
  refine ⟨length_apply_depth_first_seq f p es,
    length_apply_depth_first_calls p es, ?_⟩
  rw [collect, collect_go_eq]
  simp [length_apply_depth_first_calls]

/-- C5: `collect` returns the flat list of
`transform(key, parent_keys, child_entries)`, one per node, in the
depth-first pre-order invocation sequence; its default transform returns
the bare key, so a forest is flattened to its pre-order key list, and a
childless entries sequence collects to exactly its keys in input order;
`dict_collect`'s default transform returns the full
`(key, node, parent_entries)` tuple. -/
theorem C5_collect_flattening [DecidableEq κ]
    (es : List (Entry κ)) (t : κ → List κ → List (Entry κ) → β)
    (dns : List (κ × Node κ α)) :
    (collect es t =
      (apply_depth_first_calls [] es).map (fun c => t c.1 c.2.1 c.2.2))
  ∧ (collect_default es = flattenKeys es)
  ∧ ((∀ e ∈ es, e.childEntries = []) → collect_default es = es.map Entry.key)
  ∧ (dict_collect_default dns = apply_dict_depth_first_calls [] dns) := by
  refine ⟨by rw [collect, collect_go_eq]; simp, ?_, ?_, ?_⟩
  · rw [collect_default, collect, collect_go_eq]
    simpa using mapFst_apply_depth_first_calls [] es
  · intro h
    rw [collect_default, collect, collect_go_eq]
    simpa [flattenKeys_of_childless es h] using mapFst_apply_depth_first_calls [] es
  · rw [dict_collect_default, dict_collect, dict_collect_go_eq]
    simp

/-- Witness for C5 at a concrete childless input `[1, (2, [])]`:
`collect` returns the keys `[1, 2]` in input order (the childlessness
hypothesis is discharged at this input in the proof). -/
theorem C5_collect_flattening_witness :
    collect_default [Entry.bare 1, Entry.pair 2 []] =
      [Entry.bare 1, Entry.pair 2 []].map Entry.key
  ∧ ([Entry.bare 1, Entry.pair 2 []].map Entry.key = ([1, 2] : List Nat)) :=
  ⟨(C5_collect_flattening [Entry.bare 1, Entry.pair 2 []]
      (fun k _ _ => k) ([] : List (Nat × Node Nat Nat))).2.2.1
      (by intro e he; fin_cases he <;> rfl),
    by simp⟩

theorem odInsert_of_not_mem [DecidableEq κ] (k : κ) (v : α) (l : List (κ × α))
    (h : k ∉ l.map Prod.fst) : odInsert k v l = l ++ [(k, v)] := by
  induction l with
  | nil => simp [odInsert]
  | cons p rest ih =>
      obtain ⟨k', v'⟩ := p
      simp only [List.map_cons, List.mem_cons] at h
      push_neg at h
      have : ¬ k' = k := fun hc => h.1 hc.symm
      simp [odInsert, this, ih h.2]

theorem nodupForest_cons [DecidableEq κ] (e : Entry κ) (rest : List (Entry κ))
    (h : nodupForest (e :: rest) = true) :
    e.key ∉ rest.map Entry.key ∧ nodupForest e.childEntries = true ∧
      nodupForest rest = true := by
  cases e <;> simp_all [nodupForest, Entry.key, Entry.childEntries]

theorem nodupForest_level [DecidableEq κ] (es : List (Entry κ))
    (h : nodupForest es = true) : (es.map Entry.key).Nodup := by
  induction es with
  | nil => simp
  | cons e rest ih =>
      obtain ⟨h1, _, h3⟩ := nodupForest_cons e rest h
      simp [h1, ih h3]

theorem apply_depth_first_dict_eq_map [DecidableEq κ]
    (f : κ → List κ → List (Entry κ) → α) (p : List κ) (es : List (Entry κ))
    (acc : List (κ × Node κ α)) (hnd : (es.map Entry.key).Nodup)
    (hdisj : ∀ e ∈ es, e.key ∉ acc.map Prod.fst) :
    apply_depth_first_dict f p acc es =
      acc ++ es.map (fun e => (e.key, nodeOf f p e)) := by
  induction es generalizing acc with
  | nil => simp [apply_depth_first_dict]
  | cons e rest ih =>
      rw [apply_depth_first_dict_cons]
      have hkey : e.key ∉ acc.map Prod.fst := hdisj e (List.mem_cons_self _ _)
      simp only [List.map_cons, List.nodup_cons] at hnd
      have hdisj' : ∀ e' ∈ rest,
          e'.key ∉ (odInsert e.key (nodeOf f p e) acc).map Prod.fst := by
        intro e' he'
        rw [odInsert_of_not_mem _ _ _ hkey]
        simp only [List.map_append, List.mem_append, List.map_cons,
          List.map_nil, List.mem_singleton]
        push_neg
        refine ⟨hdisj e' (List.mem_cons_of_mem _ he'), ?_⟩
        intro hc
        exact hnd.1 (hc ▸ List.mem_map_of_mem Entry.key he')
      rw [ih _ hnd.2 hdisj', odInsert_of_not_mem _ _ _ hkey]
      simp

theorem apply_depth_first_dict_of_nodupForest [DecidableEq κ]
    (f : κ → List κ → List (Entry κ) → α) (p : List κ) (es : List (Entry κ))
    (h : nodupForest es = true) :
    apply_depth_first_dict f p [] es =
      es.map (fun e => (e.key, nodeOf f p e)) := by
  simpa using apply_depth_first_dict_eq_map f p es []
    (nodupForest_level es h) (by simp)

theorem dcalls_keys_of_nodupForest [DecidableEq κ]
    (f : κ → List κ → List (Entry κ) → α) (es : List (Entry κ)) :
    nodupForest es = true → ∀ (p : List κ) (dp : List (κ × Node κ α)),
      (apply_dict_depth_first_calls dp
          (es.map (fun e => (e.key, nodeOf f p e)))).map (fun c => c.1) =
        (apply_depth_first_calls p es).map (fun c => c.1) := by
  induction es using nodupForest.induct with
  | case1 => simp [apply_dict_depth_first_calls, apply_depth_first_calls]
  | case2 k rest ih =>
      intro h p dp
      obtain ⟨-, -, h3⟩ := nodupForest_cons _ _ h
      have hnode : nodeOf f p (Entry.bare k) = Node.mk (f k p []) none := rfl
      simp [hnode, apply_dict_depth_first_calls, apply_depth_first_calls,
        ih h3 p dp]
  | case3 k cs rest ih1 ih2 =>
      intro h p dp
      obtain ⟨-, h2, h3⟩ := nodupForest_cons _ _ h
      simp only [Entry.childEntries_pair] at h2
      by_cases hcs : cs.isEmpty
      · rw [List.isEmpty_iff] at hcs
        subst hcs
        have hnode : nodeOf f p (Entry.pair k []) = Node.mk (f k p []) none := rfl
        simp [hnode, apply_dict_depth_first_calls, apply_depth_first_calls,
          ih2 h3 p dp]
      · have hnode : nodeOf f p (Entry.pair k cs) =
            Node.mk (f k p cs)
              (some (cs.map (fun e => (e.key, nodeOf f (p ++ [k]) e)))) := by
          rw [← apply_depth_first_dict_of_nodupForest f (p ++ [k]) cs h2]
          simp [nodeOf, hcs]
        simp [hnode, apply_dict_depth_first_calls, apply_depth_first_calls, hcs,
          ih1 h2 (p ++ [k]), ih2 h3 p dp]

/-- C6 (amended): when keys are pairwise distinct at every level of the
forest, the two-stage pipeline
`dict_collect(apply_depth_first(entries, f, as_dict=True))` visits nodes in
exactly the depth-first pre-order in which `collect(entries)` visits them
(the visited key sequences coincide). -/
theorem C6_pipeline_preorder [DecidableEq κ]
    (f : κ → List κ → List (Entry κ) → α) (es : List (Entry κ))
    (h : nodupForest es = true) :
    (dict_collect_default (apply_depth_first_dict f [] [] es)).map (fun c => c.1)
      = collect_default es := by
  rw [dict_collect_default, dict_collect, dict_collect_go_eq,
    collect_default, collect, collect_go_eq,
    apply_depth_first_dict_of_nodupForest f [] es h]
  simpa using dcalls_keys_of_nodupForest f es h [] []

/-- Counterexample to C6 as stated: with duplicate sibling keys
(`entries = [0, 0]`) the mapping stage collapses the two entries into one,
so the pipeline visits one node while `collect` visits two. -/
theorem C6_pipeline_preorder_counterexample :
    (dict_collect_default (apply_depth_first_dict (fun k _ _ => k) [] []
        [Entry.bare 0, Entry.bare 0])).map (fun c => c.1)
      ≠ collect_default [Entry.bare (0 : Nat), Entry.bare 0] := by
  rw [dict_collect_default, dict_collect, dict_collect_go_eq,
    collect_default, collect, collect_go_eq]
  simp [apply_depth_first_dict, apply_depth_first_calls, odInsert,
    apply_dict_depth_first_calls]

/-- Witness for the amended C6 at the concrete duplicate-free forest
`[(1, [2]), 3]`: the pipeline and `collect` both visit keys `[1, 2, 3]`. -/
theorem C6_pipeline_preorder_witness :
    (nodupForest [Entry.pair 1 [.bare 2], Entry.bare 3] = true)
  ∧ ((dict_collect_default (apply_depth_first_dict (fun k _ _ => k * 10) [] []
        [Entry.pair 1 [.bare 2], Entry.bare 3])).map (fun c => c.1)
      = collect_default [Entry.pair (1 : Nat) [.bare 2], Entry.bare 3])
  ∧ collect_default [Entry.pair (1 : Nat) [.bare 2], Entry.bare 3] = [1, 2, 3] := by
  refine ⟨by simp [nodupForest], ?_, ?_⟩
  · exact C6_pipeline_preorder (fun k _ _ => k * 10)
      [Entry.pair 1 [.bare 2], Entry.bare 3] (by simp [nodupForest])
  · rw [collect_default, collect, collect_go_eq]
    simp [apply_depth_first_calls]

theorem occursAt_ne_nil {es : List (Entry κ)} {anc : List κ} {e : Entry κ}
    (h : OccursAt es anc e) : es ≠ [] := by
  cases h <;> simp

theorem doccursAt_ne_nil {ns anc : List (κ × Node κ α)} {q : κ × Node κ α}
    (h : DOccursAt ns anc q) : ns ≠ [] := by
  cases h <;> simp

theorem mem_calls_of_occursAt {es : List (Entry κ)} {anc : List κ}
    {e : Entry κ} (h : OccursAt es anc e) :
    ∀ parents : List κ,
      (e.key, parents ++ anc, e.childEntries) ∈
        apply_depth_first_calls parents es := by
  induction h with
  | head_here e rest =>
      intro parents
      cases e <;> simp [apply_depth_first_calls]
  | @head_child k cs anc e rest h ih =>
      intro parents
      have hcs : ¬ cs.isEmpty = true := by
        rw [List.isEmpty_iff]
        exact occursAt_ne_nil h
      simp only [apply_depth_first_calls, if_neg hcs, List.mem_cons]
      refine Or.inr (List.mem_append_left _ ?_)
      simpa [List.append_assoc] using ih (parents ++ [k])
  | tail a h ih =>
      intro parents
      cases a <;>
        · simp only [apply_depth_first_calls, List.mem_cons]
          exact Or.inr (by first
            | exact ih parents
            | exact List.mem_append_right _ (ih parents))

theorem occursAt_of_mem_calls (parents : List κ) (es : List (Entry κ)) :
    ∀ x ∈ apply_depth_first_calls parents es,
      ∃ anc e, OccursAt es anc e ∧
        x = (e.key, parents ++ anc, e.childEntries) := by
  induction parents, es using apply_depth_first_calls.induct with
  | case1 p => simp [apply_depth_first_calls]
  | case2 p k rest ih =>
      intro x hx
      simp only [apply_depth_first_calls, List.mem_cons] at hx
      rcases hx with hx | hx
      · exact ⟨[], Entry.bare k, OccursAt.head_here _ _, by simp [hx]⟩
      · obtain ⟨anc, e, hocc, hxe⟩ := ih x hx
        exact ⟨anc, e, OccursAt.tail _ hocc, hxe⟩
  | case3 p k cs rest ih1 ih2 =>
      intro x hx
      simp only [apply_depth_first_calls, List.mem_cons, List.mem_append] at hx
      rcases hx with hx | hx | hx
      · exact ⟨[], Entry.pair k cs, OccursAt.head_here _ _, by simp [hx]⟩
      · by_cases hcs : cs.isEmpty
        · simp [hcs] at hx
        · rw [if_neg hcs] at hx
          obtain ⟨anc, e, hocc, hxe⟩ := ih1 x hx
          exact ⟨k :: anc, e, OccursAt.head_child _ hocc,
            by simpa [List.append_assoc] using hxe⟩
      · obtain ⟨anc, e, hocc, hxe⟩ := ih2 x hx
        exact ⟨anc, e, OccursAt.tail _ hocc, hxe⟩

theorem mem_dcalls_of_doccursAt {ns anc : List (κ × Node κ α)}
    {q : κ × Node κ α} (h : DOccursAt ns anc q) :
    ∀ parents : List (κ × Node κ α),
      (q.1, q.2, parents ++ anc) ∈ apply_dict_depth_first_calls parents ns := by
  induction h with
  | head_here q rest =>
      intro parents
      obtain ⟨k, i, c⟩ := q
      cases c <;> simp [apply_dict_depth_first_calls]
  | @head_child k i cs anc q rest h ih =>
      intro parents
      simp only [apply_dict_depth_first_calls, List.mem_cons]
      refine Or.inr (List.mem_append_left _ ?_)
      simpa [List.append_assoc] using ih (parents ++ [(k, Node.mk i (some cs))])
  | tail a h ih =>
      intro parents
      obtain ⟨k, i, c⟩ := a
      cases c <;>
        · simp only [apply_dict_depth_first_calls, List.mem_cons]
          exact Or.inr (by first
            | exact ih parents
            | exact List.mem_append_right _ (ih parents))

theorem doccursAt_of_mem_dcalls (parents : List (κ × Node κ α))
    (ns : List (κ × Node κ α)) :
    ∀ x ∈ apply_dict_depth_first_calls parents ns,
      ∃ anc q, DOccursAt ns anc q ∧ x = (q.1, q.2, parents ++ anc) := by
  induction parents, ns using apply_dict_depth_first_calls.induct with
  | case1 p => simp [apply_dict_depth_first_calls]
  | case2 p k i rest ih =>
      intro x hx
      simp only [apply_dict_depth_first_calls, List.mem_cons] at hx
      rcases hx with hx | hx
      · exact ⟨[], (k, Node.mk i none), DOccursAt.head_here _ _, by simp [hx]⟩
      · obtain ⟨anc, q, hocc, hxe⟩ := ih x hx
        exact ⟨anc, q, DOccursAt.tail _ hocc, hxe⟩
  | case3 p k i cs rest ih1 ih2 =>
      intro x hx
      simp only [apply_dict_depth_first_calls, List.mem_cons,
        List.mem_append] at hx
      rcases hx with hx | hx | hx
      · exact ⟨[], (k, Node.mk i (some cs)), DOccursAt.head_here _ _,
          by simp [hx]⟩
      · obtain ⟨anc, q, hocc, hxe⟩ := ih1 x hx
        exact ⟨(k, Node.mk i (some cs)) :: anc, q,
          DOccursAt.head_child _ hocc,
          by simpa [List.append_assoc] using hxe⟩
      · obtain ⟨anc, q, hocc, hxe⟩ := ih2 x hx
        exact ⟨anc, q, DOccursAt.tail _ hocc, hxe⟩

/-- C4: the parent-chain argument passed to the transform for a node is
exactly the node's ancestor chain, outermost ancestor first, immediate
parent last (so its length is the node's depth): in `apply_depth_first`
the chain carries bare keys, in `apply_dict_depth_first` it carries
`(key, node)` pairs. -/
theorem C4_parent_chain_correctness (es : List (Entry κ)) (k : κ)
    (ps : List κ) (cs : List (Entry κ)) (dns : List (κ × Node κ α))
    (q : κ × Node κ α) (dps : List (κ × Node κ α)) :
    ((k, ps, cs) ∈ apply_depth_first_calls [] es ↔
      ∃ e, OccursAt es ps e ∧ e.key = k ∧ e.childEntries = cs)
  ∧ ((q.1, q.2, dps) ∈ apply_dict_depth_first_calls [] dns ↔
      DOccursAt dns dps q) := by
  constructor
  · constructor
    · intro hx
      obtain ⟨anc, e, hocc, hxe⟩ := occursAt_of_mem_calls [] es _ hx
      simp only [List.nil_append, Prod.mk.injEq] at hxe
      obtain ⟨h1, h2, h3⟩ := hxe
      exact ⟨e, h2 ▸ hocc, h1.symm, h3.symm⟩
    · rintro ⟨e, hocc, rfl, rfl⟩
      simpa using mem_calls_of_occursAt hocc []
  · constructor
    · intro hx
      obtain ⟨anc, q', hocc, hxe⟩ := doccursAt_of_mem_dcalls [] dns _ hx
      simp only [List.nil_append, Prod.mk.injEq] at hxe
      obtain ⟨h1, h2, h3⟩ := hxe
      have hq : q' = q := Prod.ext h1.symm h2.symm
      exact hq ▸ (h3 ▸ hocc)
    · intro hocc
      simpa using mem_dcalls_of_doccursAt hocc []

theorem accepted_of_conforming (es : List PyObj)
    (h : conformingEntries es = true) : acceptedEntries es = true := by
  induction es using conformingEntries.induct <;>
    simp_all [conformingEntries, acceptedEntries]

theorem exceptOk_apply_depth_first_raw (f : PyObj → List PyObj → PyObj → α) :
    (p : List PyObj) → (es : List PyObj) →
      exceptOk (apply_depth_first_raw f p es) = acceptedEntries es
  | p, [] => by simp [apply_depth_first_raw, acceptedEntries, exceptOk]
  | p, .tuple [k, .atom n] :: rest => by
      by_cases hn : n = 0
      · subst hn
        have ih := exceptOk_apply_depth_first_raw f p rest
        cases hX : apply_depth_first_raw f p rest <;>
          simp_all [apply_depth_first_raw, acceptedEntries, exceptOk,
            PyObj.truthy]
      · simp [apply_depth_first_raw, acceptedEntries, exceptOk, PyObj.truthy,
          PyObj.seqElems, hn]
  | p, .tuple [k, .tuple l] :: rest => by
      by_cases hl : l.isEmpty
      · rw [List.isEmpty_iff] at hl
        subst hl
        have ih := exceptOk_apply_depth_first_raw f p rest
        cases hX : apply_depth_first_raw f p rest <;>
          simp_all [apply_depth_first_raw, acceptedEntries, exceptOk,
            PyObj.truthy]
      · have ihc := exceptOk_apply_depth_first_raw f (p ++ [k]) l
        have ihr := exceptOk_apply_depth_first_raw f p rest
        cases hC : apply_depth_first_raw f (p ++ [k]) l <;>
          cases hX : apply_depth_first_raw f p rest <;>
            simp_all [apply_depth_first_raw, acceptedEntries, exceptOk,
              PyObj.truthy, PyObj.seqElems, hl]
  | p, .tuple [k, .pylist l] :: rest => by
      by_cases hl : l.isEmpty
      · rw [List.isEmpty_iff] at hl
        subst hl
        have ih := exceptOk_apply_depth_first_raw f p rest
        cases hX : apply_depth_first_raw f p rest <;>
          simp_all [apply_depth_first_raw, acceptedEntries, exceptOk,
            PyObj.truthy]
      · have ihc := exceptOk_apply_depth_first_raw f (p ++ [k]) l
        have ihr := exceptOk_apply_depth_first_raw f p rest
        cases hC : apply_depth_first_raw f (p ++ [k]) l <;>
          cases hX : apply_depth_first_raw f p rest <;>
            simp_all [apply_depth_first_raw, acceptedEntries, exceptOk,
              PyObj.truthy, PyObj.seqElems, hl]
  | p, .tuple [] :: rest => by
      simp [apply_depth_first_raw, acceptedEntries, exceptOk]
  | p, .tuple [x] :: rest => by
      simp [apply_depth_first_raw, acceptedEntries, exceptOk]
  | p, .tuple (a :: b :: c :: ds) :: rest => by
      simp [apply_depth_first_raw, acceptedEntries, exceptOk]
  | p, .atom n :: rest => by
      have ih := exceptOk_apply_depth_first_raw f p rest
      cases hX : apply_depth_first_raw f p rest <;>
        simp_all [apply_depth_first_raw, acceptedEntries, exceptOk]
  | p, .pylist l :: rest => by
      have ih := exceptOk_apply_depth_first_raw f p rest
      cases hX : apply_depth_first_raw f p rest <;>
        simp_all [apply_depth_first_raw, acceptedEntries, exceptOk]
  termination_by p es => sizeOf es
  decreasing_by all_goals simp_wf <;> omega

/-- C3 (amended): `apply_depth_first` succeeds exactly on the inputs in
which every reached entry is a bare (non-tuple) key, a 2-tuple with a
falsy second component (silently treated as childless — this is where the
original claim fails), or a 2-tuple whose second component is a truthy
sequence of accepted entries; it fails with `ValueError` on tuples of
length other than 2 and with `TypeError` on truthy non-sequence children.
Every §3-conforming input (any key type, no other validation) is
accepted. -/
theorem C3_shape_error_characterization (f : PyObj → List PyObj → PyObj → α)
    (p : List PyObj) (es : List PyObj) :
    (exceptOk (apply_depth_first_raw f p es) = acceptedEntries es)
  ∧ (conformingEntries es = true →
      exceptOk (apply_depth_first_raw f p es) = true) := by
  refine ⟨exceptOk_apply_depth_first_raw f p es, fun h => ?_⟩
  rw [exceptOk_apply_depth_first_raw f p es]
  exact accepted_of_conforming es h

/-- Counterexample to C3 as stated: the entry `(1, 0)` is a 2-tuple whose
second element is not an ordered sequence, so the claim requires a
type/shape error, but the code tests `if nodes:` first — `0` is falsy, the
entry is treated as childless, and the traversal succeeds. -/
theorem C3_shape_error_counterexample :
    (exceptOk (apply_depth_first_raw (fun _ _ _ => (0 : Nat)) []
        [PyObj.tuple [.atom 1, .atom 0]]) = true)
  ∧ conformingEntries [PyObj.tuple [.atom 1, .atom 0]] = false := by
  constructor <;>
    simp [apply_depth_first_raw, exceptOk, PyObj.truthy, conformingEntries]

/-- Witness for C3's amended theorem at the conforming input
`[(1, [2]), 3]`: the traversal succeeds. -/
theorem C3_shape_error_characterization_witness :
    (conformingEntries [PyObj.tuple [.atom 1, .pylist [.atom 2]], .atom 3] = true)
  ∧ (exceptOk (apply_depth_first_raw (fun _ _ _ => (0 : Nat)) []
      [PyObj.tuple [.atom 1, .pylist [.atom 2]], .atom 3]) = true) :=
  ⟨by simp [conformingEntries],
    (C3_shape_error_characterization (fun _ _ _ => (0 : Nat)) []
      [PyObj.tuple [.atom 1, .pylist [.atom 2]], .atom 3]).2
      (by simp [conformingEntries])⟩

/-- The first `some` produced by `g` along a list, in order; applied to
the invocation trace it yields the first exception in execution order. -/
def firstSome {γ : Type u} {δ : Type w} (g : γ → Option δ) : List γ → Option δ
  | [] => none
  | c :: rest =>
      match g c with
      | some e => some e
      | none => firstSome g rest

theorem firstSome_append {γ : Type u} {δ : Type w} (g : γ → Option δ)
    (l1 l2 : List γ) :
    firstSome g (l1 ++ l2) =
      match firstSome g l1 with
      | some e => some e
      | none => firstSome g l2 := by
  induction l1 with
  | nil => simp [firstSome]
  | cons c l1 ih => cases hg : g c <;> simp [firstSome, hg, ih]

universe x

/-- The exception a fallible `apply_dict_depth_first` transform raises on
one recorded invocation, if any. -/
def errOfD {ε : Type x} (f : κ → Node κ α → List (κ × Node κ α) → Except ε β)
    (c : κ × Node κ α × List (κ × Node κ α)) : Option ε :=
  match f c.1 c.2.1 c.2.2 with
  | .error e => some e
  | .ok _ => none

/-- The success value of a nowhere-failing fallible
`apply_dict_depth_first` transform. -/
def okValueD {ε : Type x} [Inhabited β]
    (f : κ → Node κ α → List (κ × Node κ α) → Except ε β)
    (k : κ) (n : Node κ α) (ps : List (κ × Node κ α)) : β :=
  match f k n ps with
  | .ok v => v
  | .error _ => default

/-- `apply_dict_depth_first(nodes, func, as_dict=True, parents)` when
`func` may raise: effects are sequenced as the source executes them — the
element's own `func` call, then the recursion into `node.children` when it
is not `None`, then the following elements; the first exception aborts the
traversal and propagates. -/
def apply_dict_depth_firstE {ε : Type x} [DecidableEq κ]
    (f : κ → Node κ α → List (κ × Node κ α) → Except ε β)
    (parents : List (κ × Node κ α)) (acc : List (κ × Node κ β)) :
    List (κ × Node κ α) → Except ε (List (κ × Node κ β))
  | [] => .ok acc
  | (k, Node.mk i none) :: rest =>
      match f k (Node.mk i none) parents with
      | .error e => .error e
      | .ok item =>
          apply_dict_depth_firstE f parents
            (odInsert k (Node.mk item none) acc) rest
  | (k, Node.mk i (some cs)) :: rest =>
      match f k (Node.mk i (some cs)) parents with
      | .error e => .error e
      | .ok item =>
          match apply_dict_depth_firstE f
              (parents ++ [(k, Node.mk i (some cs))]) [] cs with
          | .error e => .error e
          | .ok children =>
              apply_dict_depth_firstE f parents
                (odInsert k (Node.mk item (some children)) acc) rest
  termination_by ns => sizeOf ns
  decreasing_by all_goals simp_wf <;> omega

theorem apply_depth_first_seqE_eq {ε : Type w} [Inhabited α]
    (f : κ → List κ → List (Entry κ) → Except ε α) (p : List κ)
    (es : List (Entry κ)) :
    apply_depth_first_seqE f p es =
      match firstSome (errOf f) (apply_depth_first_calls p es) with
      | some e => .error e
      | none => .ok (apply_depth_first_seq (okValue f) p es) := by
  induction p, es using apply_depth_first_calls.induct with
  | case1 p =>
      simp [apply_depth_first_seqE, apply_depth_first_calls, firstSome,
        apply_depth_first_seq]
  | case2 p k rest ih =>
      cases hf : f k p [] with
      | error e =>
          simp [apply_depth_first_seqE, apply_depth_first_calls, firstSome,
            errOf, hf]
      | ok v =>
          have hov : okValue f k p [] = v := by simp [okValue, hf]
          simp only [apply_depth_first_seqE, apply_depth_first_calls, hf]
          rw [ih]
          cases hr : firstSome (errOf f) (apply_depth_first_calls p rest) <;>
            simp [firstSome, errOf, hf, hr, apply_depth_first_seq, hov]
  | case3 p k cs rest ih1 ih2 =>
      by_cases hcs : cs.isEmpty
      · rw [List.isEmpty_iff] at hcs
        subst hcs
        cases hf : f k p [] with
        | error e =>
            simp [apply_depth_first_seqE, apply_depth_first_calls, firstSome,
              errOf, hf]
        | ok v =>
            have hov : okValue f k p [] = v := by simp [okValue, hf]
            simp only [apply_depth_first_seqE, apply_depth_first_calls, hf,
              List.isEmpty_nil, if_true]
            rw [ih2]
            cases hr : firstSome (errOf f) (apply_depth_first_calls p rest) <;>
              simp [firstSome, errOf, hf, hr, apply_depth_first_seq, hov]
      · cases hf : f k p cs with
        | error e =>
            simp [apply_depth_first_seqE, apply_depth_first_calls, firstSome,
              errOf, hf, hcs]
        | ok v =>
            have hov : okValue f k p cs = v := by simp [okValue, hf]
            simp only [apply_depth_first_seqE, apply_depth_first_calls, hf, hcs]
            rw [ih1]
            cases hc : firstSome (errOf f)
                (apply_depth_first_calls (p ++ [k]) cs) with
            | some e =>
                simp [firstSome, errOf, hf, firstSome_append, hc, hcs]
            | none =>
                rw [ih2]
                cases hr : firstSome (errOf f) (apply_depth_first_calls p rest) <;>
                  simp [firstSome, errOf, hf, firstSome_append, hc, hr,
                    apply_depth_first_seq, hov, hcs]

theorem apply_depth_first_dictE_eq {ε : Type w} [Inhabited α] [DecidableEq κ]
    (f : κ → List κ → List (Entry κ) → Except ε α) (p : List κ)
    (es : List (Entry κ)) :
    ∀ acc : List (κ × Node κ α),
      apply_depth_first_dictE f p acc es =
        match firstSome (errOf f) (apply_depth_first_calls p es) with
        | some e => .error e
        | none => .ok (apply_depth_first_dict (okValue f) p acc es) := by
  induction p, es using apply_depth_first_calls.induct with
  | case1 p =>
      intro acc
      simp [apply_depth_first_dictE, apply_depth_first_calls, firstSome,
        apply_depth_first_dict]
  | case2 p k rest ih =>
      intro acc
      cases hf : f k p [] with
      | error e =>
          simp [apply_depth_first_dictE, apply_depth_first_calls, firstSome,
            errOf, hf]
      | ok v =>
          have hov : okValue f k p [] = v := by simp [okValue, hf]
          simp only [apply_depth_first_dictE, apply_depth_first_calls, hf]
          rw [ih]
          cases hr : firstSome (errOf f) (apply_depth_first_calls p rest) <;>
            simp [firstSome, errOf, hf, hr, apply_depth_first_dict, hov]
  | case3 p k cs rest ih1 ih2 =>
      intro acc
      by_cases hcs : cs.isEmpty
      · rw [List.isEmpty_iff] at hcs
        subst hcs
        cases hf : f k p [] with
        | error e =>
            simp [apply_depth_first_dictE, apply_depth_first_calls, firstSome,
              errOf, hf]
        | ok v =>
            have hov : okValue f k p [] = v := by simp [okValue, hf]
            simp only [apply_depth_first_dictE, apply_depth_first_calls, hf,
              List.isEmpty_nil, if_true]
            rw [ih2]
            cases hr : firstSome (errOf f) (apply_depth_first_calls p rest) <;>
              simp [firstSome, errOf, hf, hr, apply_depth_first_dict, hov]
      · cases hf : f k p cs with
        | error e =>
            simp [apply_depth_first_dictE, apply_depth_first_calls, firstSome,
              errOf, hf, hcs]
        | ok v =>
            have hov : okValue f k p cs = v := by simp [okValue, hf]
            simp only [apply_depth_first_dictE, apply_depth_first_calls, hf, hcs]
            rw [ih1]
            cases hc : firstSome (errOf f)
                (apply_depth_first_calls (p ++ [k]) cs) with
            | some e =>
                simp [firstSome, errOf, hf, firstSome_append, hc, hcs]
            | none =>
                cases hr : firstSome (errOf f) (apply_depth_first_calls p rest) <;>
                  · simp [firstSome, errOf, hf, firstSome_append, hc, hr,
                      apply_depth_first_dict, hov, hcs]
                    rw [ih2]
                    simp [hr]

theorem apply_dict_depth_firstE_eq {ε : Type x} [Inhabited β] [DecidableEq κ]
    (f : κ → Node κ α → List (κ × Node κ α) → Except ε β)
    (p : List (κ × Node κ α)) (ns : List (κ × Node κ α)) :
    ∀ acc : List (κ × Node κ β),
      apply_dict_depth_firstE f p acc ns =
        match firstSome (errOfD f) (apply_dict_depth_first_calls p ns) with
        | some e => .error e
        | none => .ok (apply_dict_depth_first (okValueD f) p acc ns) := by
  induction p, ns using apply_dict_depth_first_calls.induct with
  | case1 p =>
      intro acc
      simp [apply_dict_depth_firstE, apply_dict_depth_first_calls, firstSome,
        apply_dict_depth_first]
  | case2 p k i rest ih =>
      intro acc
      cases hf : f k (Node.mk i none) p with
      | error e =>
          simp [apply_dict_depth_firstE, apply_dict_depth_first_calls,
            firstSome, errOfD, hf]
      | ok v =>
          have hov : okValueD f k (Node.mk i none) p = v := by
            simp [okValueD, hf]
          simp only [apply_dict_depth_firstE, apply_dict_depth_first_calls, hf]
          rw [ih]
          cases hr : firstSome (errOfD f)
              (apply_dict_depth_first_calls p rest) <;>
            simp [firstSome, errOfD, hf, hr, apply_dict_depth_first, hov]
  | case3 p k i cs rest ih1 ih2 =>
      intro acc
      cases hf : f k (Node.mk i (some cs)) p with
      | error e =>
          simp [apply_dict_depth_firstE, apply_dict_depth_first_calls,
            firstSome, errOfD, hf]
      | ok v =>
          have hov : okValueD f k (Node.mk i (some cs)) p = v := by
            simp [okValueD, hf]
          simp only [apply_dict_depth_firstE, apply_dict_depth_first_calls, hf]
          rw [ih1]
          cases hc : firstSome (errOfD f)
              (apply_dict_depth_first_calls
                (p ++ [(k, Node.mk i (some cs))]) cs) with
          | some e =>
              simp [firstSome, errOfD, hf, firstSome_append, hc]
          | none =>
              cases hr : firstSome (errOfD f)
                  (apply_dict_depth_first_calls p rest) <;>
                · simp [firstSome, errOfD, hf, firstSome_append, hc, hr,
                    apply_dict_depth_first, hov]
                  rw [ih2]
                  simp [hr]

/-- C9: each traversal with a transform that may raise is all-or-nothing —
`apply_depth_first` in both output modes, and `apply_dict_depth_first`: if
any invocation raises, the whole call evaluates to the first exception in
execution order and no output is produced; if no invocation raises, the
call returns the complete output structure of the everywhere-succeeding
transform.  (The embedding is pure, so the input is never mutated.) -/
theorem C9_all_or_nothing {ε : Type w} [Inhabited α] [Inhabited β]
    [DecidableEq κ]
    (f : κ → List κ → List (Entry κ) → Except ε α) (p : List κ)
    (acc : List (κ × Node κ α)) (es : List (Entry κ))
    (g : κ → Node κ α → List (κ × Node κ α) → Except ε β)
    (dp : List (κ × Node κ α)) (dacc : List (κ × Node κ β))
    (dns : List (κ × Node κ α)) :
    (apply_depth_first_seqE f p es =
      match firstSome (errOf f) (apply_depth_first_calls p es) with
      | some e => .error e
      | none => .ok (apply_depth_first_seq (okValue f) p es))
  ∧ (apply_depth_first_dictE f p acc es =
      match firstSome (errOf f) (apply_depth_first_calls p es) with
      | some e => .error e
      | none => .ok (apply_depth_first_dict (okValue f) p acc es))
  ∧ (apply_dict_depth_firstE g dp dacc dns =
      match firstSome (errOfD g) (apply_dict_depth_first_calls dp dns) with
      | some e => .error e
      | none => .ok (apply_dict_depth_first (okValueD g) dp dacc dns)) :=
  ⟨apply_depth_first_seqE_eq f p es, apply_depth_first_dictE_eq f p es acc,
    apply_dict_depth_firstE_eq g dp dns dacc⟩

end NestedStructures
